import Mathlib

/-!
A shallow embedding of the game-logic core of the Fish board game
(`Fish_game.py`, with the simpler variants `fish.py` / `fish1.py` as
secondary sources).  Python dictionaries are modelled as association
lists over coordinates, Python ints as `Int`/`Nat`, and Python floats
(used only by the minimax evaluation, with the exact binary constants
0.5 and the inexact 0.3) as rationals; the minimax code also uses
`float('-inf')` / `float('inf')`, modelled by an extended-value type.
-/

namespace Fish

/-- A hex-cell coordinate `(row, col)`, as the Python pair of ints. -/
abbrev Coord := Int × Int

/-- The six symbolic direction labels used by
`FishGame._get_hex_neighbors_with_direction`. -/
inductive Dir where
  | E | NE | NW | W | SW | SE
deriving DecidableEq, Repr

/-- All six directions, in the iteration order of the Python dict literal
built by `_get_hex_neighbors_with_direction`. -/
def dirList : List Dir := [Dir.E, Dir.NE, Dir.NW, Dir.W, Dir.SW, Dir.SE]

/-- `FishGame._get_hex_neighbors_with_direction`, read off for a single
direction label: the neighbour tables depend on the parity of the column. -/
def hexNeighbor (d : Dir) (c : Coord) : Coord :=
  let row := c.1
  let col := c.2
  if col % 2 = 0 then
    match d with
    | Dir.E  => (row, col + 1)
    | Dir.NE => (row - 1, col + 1)
    | Dir.NW => (row - 1, col)
    | Dir.W  => (row, col - 1)
    | Dir.SW => (row + 1, col)
    | Dir.SE => (row + 1, col + 1)
  else
    match d with
    | Dir.E  => (row, col + 1)
    | Dir.NE => (row - 1, col)
    | Dir.NW => (row - 1, col - 1)
    | Dir.W  => (row, col - 1)
    | Dir.SW => (row + 1, col - 1)
    | Dir.SE => (row + 1, col)

/-- `n` repeated steps in the fixed direction `d`
(the straight hex line through a cell). -/
def stepN (d : Dir) : Nat → Coord → Coord
  | 0, c => c
  | n + 1, c => stepN d n (hexNeighbor d c)

/-- A strictly increasing measure along each direction, used to show the
straight-line walk never revisits a cell. -/
def dirMeasure (d : Dir) (c : Coord) : Int :=
  match d with
  | Dir.E  => c.2
  | Dir.W  => -c.2
  | Dir.NE => -c.1
  | Dir.NW => -c.1
  | Dir.SW => c.1
  | Dir.SE => c.1

/-- The `Tile` dataclass: row, col, fish value, and the (never cleared)
`exists` flag. -/
structure Tile where
  row : Int
  col : Int
  fish : Nat
  existsFlag : Bool := true
deriving DecidableEq, Repr

/-- The `Player` dataclass (game-logic fields). -/
structure Player where
  name : String
  color : String
  age : Int
  isAI : Bool
  fishCount : Int
  penguins : List Coord
deriving DecidableEq, Repr

/-- The `GameState` enum of `Fish_game.py` (the phase of the game). -/
inductive GamePhase where
  | SETUP | PLACING_PENGUINS | PLAYING | GAME_OVER
deriving DecidableEq, Repr

/-- The game-logic state of the `FishGame` view: the tile dict of its
`HexGrid`, the `penguin_positions` dict (coordinate to player index), the
player list, the current player index, the phase, the UI selection
(`selected_penguin` / `valid_moves`) and the configured minimax depth.
Purely presentational fields (particles, floating numbers, move history,
info text) are not modelled. -/
structure FishGame where
  tiles : List (Coord × Tile)
  penguinPositions : List (Coord × Nat)
  players : List Player
  currentPlayerIndex : Nat
  gamePhase : GamePhase
  selectedPenguin : Option Coord
  validMoves : List Coord
  minimaxDepth : Nat
deriving DecidableEq, Repr

/-- Python `dict` deletion (`del d[k]`), on the association-list model. -/
def dictErase (l : List (Coord × α)) (k : Coord) : List (Coord × α) :=
  l.filter (fun p => p.1 ≠ k)

/-- Python `dict` assignment (`d[k] = v`): replace in place if the key is
present, append otherwise. -/
def dictInsert (l : List (Coord × α)) (k : Coord) (v : α) : List (Coord × α) :=
  if (l.lookup k).isSome then
    l.map (fun p => if p.1 = k then (k, v) else p)
  else
    l ++ [(k, v)]

/-- `(row, col) in self.grid.tiles` : the coordinate has a present tile. -/
def hasTile (g : FishGame) (c : Coord) : Bool :=
  (g.tiles.lookup c).isSome

/-- `(row, col) in self.penguin_positions` : the coordinate is occupied. -/
def occupiedAt (g : FishGame) (c : Coord) : Bool :=
  (g.penguinPositions.lookup c).isSome

/-- The walk of `_get_valid_moves` along one fixed direction, starting at
the first neighbour: stop on a missing tile or an occupied cell, else
record the cell and continue.  The Python `while True` loop terminates
because the finite tile dict bounds the line; here a fuel argument larger
than the number of tiles plays that role. -/
def traceDir (g : FishGame) (d : Dir) : Coord → Nat → List Coord
  | _, 0 => []
  | c, fuel + 1 =>
    if ¬ hasTile g c then []
    else if occupiedAt g c then []
    else c :: traceDir g d (hexNeighbor d c) fuel

/-- Fuel that certainly exceeds the length of any sliding line. -/
def moveFuel (g : FishGame) : Nat := g.tiles.length + 1

/-- `FishGame._get_valid_moves`: trace each of the six directions from the
token's cell and concatenate the reachable cells. -/
def getValidMoves (g : FishGame) (start : Coord) : List Coord :=
  (dirList.map (fun d => traceDir g d (hexNeighbor d start) (moveFuel g))).flatten

/-- `HexGrid.remove_tile`: delete the tile and return its fish count; when
no tile is present it returns 0 and deletes nothing (no error is raised). -/
def removeTile (tiles : List (Coord × Tile)) (c : Coord) : Nat × List (Coord × Tile) :=
  match tiles.lookup c with
  | some t => (t.fish, dictErase tiles c)
  | none => (0, tiles)

/-- `FishGame._is_game_over`: no player has a valid move for any penguin. -/
def isGameOver (g : FishGame) : Bool :=
  g.players.all (fun p => p.penguins.all (fun pos => (getValidMoves g pos).isEmpty))

/-- Update the player at a given index (Python `self.players[i]` mutation). -/
def modifyPlayer (ps : List Player) (i : Nat) (f : Player → Player) : List Player :=
  ps.modify f i

/-- `FishGame._move_penguin` (the game-logic mutations; fish particles,
floating numbers and the move-history log are presentational).  The Python
`dict.pop` raises `KeyError` on a missing key, modelled by `none`. -/
def movePenguin (g : FishGame) (fromPos toPos : Coord) : Option FishGame :=
  match g.penguinPositions.lookup fromPos with
  | none => none
  | some playerIndex =>
    let positions1 := dictErase g.penguinPositions fromPos
    let r := removeTile g.tiles fromPos
    let players1 := modifyPlayer g.players playerIndex
      (fun p => { p with fishCount := p.fishCount + (r.1 : Int) })
    let positions2 := dictInsert positions1 toPos playerIndex
    let players2 := modifyPlayer players1 playerIndex
      (fun p => { p with penguins := p.penguins.erase fromPos ++ [toPos] })
    some { g with tiles := r.2, penguinPositions := positions2, players := players2 }

/-- `FishGame._make_temp_move`: the same mutations as `_move_penguin`
without the presentational side effects; returns the removed fish count
for the later undo.  A missing `from` key would raise `KeyError` in
Python; that branch is modelled as the identity and is unreachable in
every guarded use. -/
def makeTempMove (g : FishGame) (fromPos toPos : Coord) : FishGame × Nat :=
  match g.penguinPositions.lookup fromPos with
  | none => (g, 0)
  | some playerIndex =>
    let positions1 := dictErase g.penguinPositions fromPos
    let r := removeTile g.tiles fromPos
    let players1 := modifyPlayer g.players playerIndex
      (fun p => { p with fishCount := p.fishCount + (r.1 : Int) })
    let positions2 := dictInsert positions1 toPos playerIndex
    let players2 := modifyPlayer players1 playerIndex
      (fun p => { p with penguins := p.penguins.erase fromPos ++ [toPos] })
    ({ g with tiles := r.2, penguinPositions := positions2, players := players2 }, r.1)

/-- `FishGame._undo_temp_move`: put the penguin back and reinsert the
removed tile with the remembered fish count. -/
def undoTempMove (g : FishGame) (fromPos toPos : Coord) (fishCollected : Nat) : FishGame :=
  match g.penguinPositions.lookup toPos with
  | none => g
  | some playerIndex =>
    let positions1 := dictErase g.penguinPositions toPos
    let tiles1 := dictInsert g.tiles fromPos
      { row := fromPos.1, col := fromPos.2, fish := fishCollected }
    let players1 := modifyPlayer g.players playerIndex
      (fun p => { p with fishCount := p.fishCount - (fishCollected : Int) })
    let positions2 := dictInsert positions1 fromPos playerIndex
    let players2 := modifyPlayer players1 playerIndex
      (fun p => { p with penguins := p.penguins.erase toPos ++ [fromPos] })
    { g with tiles := tiles1, penguinPositions := positions2, players := players2 }

/-- Does the player at index `i` have any penguin with a valid move
(the loop body of `_next_turn` / `_ai_make_move`'s callers)? -/
def playerCanMove (g : FishGame) (i : Nat) : Bool :=
  match g.players.get? i with
  | some p => p.penguins.any (fun pos => ¬ (getValidMoves g pos).isEmpty)
  | none => false

/-- The `while attempts < len(self.players)` loop of `FishGame._next_turn`:
advance the index cyclically until a player who can move is found, for at
most one full rotation; `none` means the rotation completed. -/
def nextTurnLoop (g : FishGame) (idx : Nat) : Nat → Option Nat
  | 0 => none
  | attempts + 1 =>
    let idx1 := (idx + 1) % g.players.length
    if playerCanMove g idx1 then some idx1 else nextTurnLoop g idx1 attempts

/-- `FishGame._next_turn`: rotate to the next player who can move; if the
full rotation finds none, the game ends (`_end_game` sets the phase to
`GAME_OVER`; after a full rotation the index is back at its old value). -/
def nextTurn (g : FishGame) : FishGame :=
  match nextTurnLoop g g.currentPlayerIndex g.players.length with
  | some idx1 => { g with currentPlayerIndex := idx1 }
  | none => { g with gamePhase := GamePhase.GAME_OVER }

/-- `FishGame._place_penguin_at`: record the penguin for the current
player, advance the index, and switch to the `PLAYING` phase (resetting
the mover to player 0) once each player holds `6 - playerCount` penguins. -/
def placePenguinAt (g : FishGame) (c : Coord) : FishGame :=
  let g1 := { g with
    penguinPositions := dictInsert g.penguinPositions c g.currentPlayerIndex,
    players := modifyPlayer g.players g.currentPlayerIndex
      (fun p => { p with penguins := p.penguins ++ [c] }) }
  let g2 := { g1 with currentPlayerIndex := (g1.currentPlayerIndex + 1) % g1.players.length }
  let totalPenguins : Nat := (g2.players.map (fun p => p.penguins.length)).sum
  let expectedPenguins : Nat := g2.players.length * (6 - g2.players.length)
  if totalPenguins ≥ expectedPenguins then
    { g2 with gamePhase := GamePhase.PLAYING, currentPlayerIndex := 0 }
  else
    g2

/-- `FishGame._handle_penguin_placement`: a click on a missing tile or an
occupied cell is silently ignored; otherwise the penguin is placed. -/
def handlePenguinPlacement (g : FishGame) (c : Coord) : FishGame :=
  if ¬ hasTile g c then g
  else if occupiedAt g c then g
  else placePenguinAt g c

/-- `FishGame._handle_gameplay_click`.  A click on a penguin selects it
(own) or is refused (opponent's); a click on a stored valid move starts
the move animation, whose completion (`_complete_move`) runs
`_move_penguin` and `_next_turn` — modelled here as the immediate
application; any other click only produces an info message.  `none`
models the `KeyError` crash of `_start_animation`/`_move_penguin` when the
selected cell unexpectedly holds no penguin. -/
def handleGameplayClick (g : FishGame) (c : Coord) : Option FishGame :=
  match g.penguinPositions.lookup c with
  | some owner =>
    if owner = g.currentPlayerIndex then
      some { g with selectedPenguin := some c, validMoves := getValidMoves g c }
    else
      some g
  | none =>
    match g.selectedPenguin with
    | some fromPos =>
      if c ∈ g.validMoves then
        match movePenguin g fromPos c with
        | some g1 => some (nextTurn { g1 with selectedPenguin := none, validMoves := [] })
        | none => none
      else
        some g
    | none => some g

/-- The hex-level behaviour of `FishGame.on_mouse_press`: clicks from an
AI mover are ignored, and the click is dispatched on the phase. -/
def onHexClick (g : FishGame) (c : Coord) : Option FishGame :=
  match g.players.get? g.currentPlayerIndex with
  | none => none
  | some cur =>
    if cur.isAI then some g
    else
      match g.gamePhase with
      | GamePhase.PLACING_PENGUINS => some (handlePenguinPlacement g c)
      | GamePhase.PLAYING => handleGameplayClick g c
      | _ => some g

/-- Python float values as used by the minimax code: `float('-inf')`,
finite values (modelled as rationals), `float('inf')`. -/
inductive XVal where
  | ninf
  | fin (q : ℚ)
  | pinf
deriving DecidableEq, Repr

/-- The Python `<` comparison on the extended values. -/
def xlt : XVal → XVal → Bool
  | _, XVal.ninf => false
  | XVal.ninf, _ => true
  | XVal.fin a, XVal.fin b => a < b
  | XVal.fin _, XVal.pinf => true
  | XVal.pinf, _ => false

/-- The Python `<=` comparison on the extended values. -/
def xle (a b : XVal) : Bool := ¬ xlt b a

/-- Python `max(a, b)` (returns `a` unless `a < b`). -/
def xmax (a b : XVal) : XVal := if xlt a b then b else a

/-- Python `min(a, b)` (returns `a` unless `b < a`). -/
def xmin (a b : XVal) : XVal := if xlt b a then b else a

/-- A default player, standing in for the `IndexError` a Python list
access with an out-of-range index would raise; every use is guarded. -/
def defaultPlayer : Player :=
  { name := "", color := "", age := 0, isAI := false, fishCount := 0, penguins := [] }

/-- `FishGame._evaluate_board`: the current player's fish count, minus the
mean opponent fish count, plus own mobility times 0.5, minus mean opponent
mobility times 0.3.  The Python float constants are modelled exactly as
rationals. -/
def evaluateBoard (g : FishGame) : ℚ :=
  let cur := (g.players.get? g.currentPlayerIndex).getD defaultPlayer
  let opponents := g.players.enum.filter (fun pr => pr.1 ≠ g.currentPlayerIndex)
  let opponentCount : Nat := opponents.length
  let opponentFishTotal : Int := (opponents.map (fun pr => pr.2.fishCount)).sum
  let score1 : ℚ := (cur.fishCount : ℚ)
  let score2 : ℚ :=
    if opponentCount > 0 then score1 - (opponentFishTotal : ℚ) / (opponentCount : ℚ)
    else score1
  let mobility : Nat := (cur.penguins.map (fun pos => (getValidMoves g pos).length)).sum
  let score3 : ℚ := score2 + (mobility : ℚ) * (1 / 2)
  let opponentMobility : Nat :=
    (opponents.map (fun pr =>
      (pr.2.penguins.map (fun pos => (getValidMoves g pos).length)).sum)).sum
  if opponentCount > 0 then
    score3 - ((opponentMobility : ℚ) / (opponentCount : ℚ)) * (3 / 10)
  else
    score3

/-- A fold that mirrors a Python `for` loop whose body may `break`: the
step returns the new state and whether to break out of the rest. -/
def foldBreak (f : σ → α → σ × Bool) : List α → σ → σ
  | [], s => s
  | a :: l, s =>
    let r := f s a
    if r.2 then r.1 else foldBreak f l r.1

/-- The state after a temporary move with the mover index advanced, as set
up around the recursive `_minimax` calls. -/
def tempMoveNext (g : FishGame) (fromPos toPos : Coord) : FishGame :=
  let g1 := (makeTempMove g fromPos toPos).1
  { g1 with currentPlayerIndex := (g.currentPlayerIndex + 1) % g.players.length }

/-- `FishGame._minimax` with alpha-beta pruning.  The recursion is on the
depth; the temporary move / undo pair of the source is the pure state
`tempMoveNext` here.  The inner `for move_pos` loop carries
(`max_eval`/`min_eval`, `alpha`/`beta`) and may break on the pruning test;
the outer `for penguin_pos` loop is never broken out of. -/
def minimax : Nat → FishGame → XVal → XVal → Bool → XVal
  | 0, g, _, _, _ => XVal.fin (evaluateBoard g)
  | depth + 1, g, alpha, beta, maximizingPlayer =>
    if isGameOver g then XVal.fin (evaluateBoard g)
    else
      let cur := (g.players.get? g.currentPlayerIndex).getD defaultPlayer
      if maximizingPlayer then
        let r := cur.penguins.foldl (fun (st : XVal × XVal) pos =>
          foldBreak (fun (st1 : XVal × XVal) movePos =>
            let evalScore := minimax depth (tempMoveNext g pos movePos) st1.2 beta false
            let maxEval := xmax st1.1 evalScore
            let alpha1 := xmax st1.2 evalScore
            ((maxEval, alpha1), xle beta alpha1))
            (getValidMoves g pos) st)
          (XVal.ninf, alpha)
        r.1
      else
        let r := cur.penguins.foldl (fun (st : XVal × XVal) pos =>
          foldBreak (fun (st1 : XVal × XVal) movePos =>
            let evalScore := minimax depth (tempMoveNext g pos movePos) alpha st1.2 true
            let minEval := xmin st1.1 evalScore
            let beta1 := xmin st1.2 evalScore
            ((minEval, beta1), xle beta1 alpha))
            (getValidMoves g pos) st)
          (XVal.pinf, beta)
        r.1

/-- The decision core of `FishGame._ai_make_move`: try every valid move of
every penguin of the current player, score each with
`_minimax(depth - 1, alpha, beta, False)` on the temporarily moved state
(the source does not advance the mover index here), and keep the first
move that strictly improves the best score.  The deep-copy / restore
discipline of the source makes the computation a pure function of the
state; the chosen move (or `none`) is the result. -/
def aiMakeMove (g : FishGame) : Option (Coord × Coord) :=
  let cur := (g.players.get? g.currentPlayerIndex).getD defaultPlayer
  let candidates : List (Coord × Coord) :=
    cur.penguins.flatMap (fun pos => (getValidMoves g pos).map (fun m => (pos, m)))
  let r := candidates.foldl
    (fun (st : XVal × Option (Coord × Coord) × XVal) pm =>
      let score := minimax (g.minimaxDepth - 1) ((makeTempMove g pm.1 pm.2).1)
        st.2.2 XVal.pinf false
      let best :=
        if xlt st.1 score then (score, some pm) else (st.1, st.2.1)
      (best.1, best.2, xmax st.2.2 best.1))
    (XVal.ninf, none, XVal.ninf)
  r.2.1

/-- The reachable game states: a fresh game (any generated board, players
with no penguins and no fish, phase `PLACING_PENGUINS`, player 0 to move)
followed by any sequence of the game's own operations: human placement
clicks, AI placements (always on a present, unoccupied tile), human
gameplay clicks, and AI moves (applied via `_complete_move`, or a skipped
turn when the AI finds no move). -/
inductive Reachable : FishGame → Prop
  | init (tiles : List (Coord × Tile)) (players0 : List Player) (d : Nat)
      (hne : players0 ≠ [])
      (hp : ∀ p ∈ players0, p.penguins = [])
      (hf : ∀ p ∈ players0, p.fishCount = 0) :
      Reachable { tiles := tiles, penguinPositions := [], players := players0,
                  currentPlayerIndex := 0, gamePhase := GamePhase.PLACING_PENGUINS,
                  selectedPenguin := none, validMoves := [], minimaxDepth := d }
  | placeClick (g : FishGame) (c : Coord) :
      Reachable g → g.gamePhase = GamePhase.PLACING_PENGUINS →
      Reachable (handlePenguinPlacement g c)
  | aiPlace (g : FishGame) (c : Coord) :
      Reachable g → g.gamePhase = GamePhase.PLACING_PENGUINS →
      hasTile g c = true → occupiedAt g c = false →
      Reachable (placePenguinAt g c)
  | playClick (g g1 : FishGame) (c : Coord) :
      Reachable g → g.gamePhase = GamePhase.PLAYING →
      handleGameplayClick g c = some g1 →
      Reachable g1
  | aiMove (g g1 : FishGame) (fromPos toPos : Coord) :
      Reachable g → g.gamePhase = GamePhase.PLAYING →
      aiMakeMove g = some (fromPos, toPos) →
      movePenguin g fromPos toPos = some g1 →
      Reachable (nextTurn g1)
  | aiPass (g : FishGame) :
      Reachable g → g.gamePhase = GamePhase.PLAYING →
      aiMakeMove g = none →
      Reachable (nextTurn g)

/-! ### Refinement comparators written from the spec's words -/

/-- The spec's error kind for removing a missing tile. -/
inductive RemovalError where
  | InvalidRemoval
deriving DecidableEq, Repr

/-- The contract the spec states for `removeTile`, written from its words:
delete the tile and return the fish value that was present, failing with
`InvalidRemoval` when no tile exists there.  To be compared with the
source's `removeTile`, which never fails. -/
def removeTileSpec (tiles : List (Coord × Tile)) (c : Coord) :
    Except RemovalError (Nat × List (Coord × Tile)) :=
  match tiles.lookup c with
  | some t => Except.ok (t.fish, dictErase tiles c)
  | none => Except.error RemovalError.InvalidRemoval

/-- The spec's error kind for an invalid move application. -/
inductive MoveError where
  | IllegalMove
deriving DecidableEq, Repr

/-- The failure contract the spec states for applying a move, written from
its words: a move whose `from` has no token, whose `to` is not among the
legal moves of `from`, or attempted outside the Playing phase, fails with
`IllegalMove`.  To be compared with the source's click handler, which
raises nothing. -/
def applyMoveSpec (g : FishGame) (fromPos toPos : Coord) :
    Except MoveError FishGame :=
  if g.gamePhase ≠ GamePhase.PLAYING then Except.error MoveError.IllegalMove
  else if (g.penguinPositions.lookup fromPos).isNone then Except.error MoveError.IllegalMove
  else if toPos ∉ getValidMoves g fromPos then Except.error MoveError.IllegalMove
  else
    match movePenguin g fromPos toPos with
    | some g1 => Except.ok g1
    | none => Except.error MoveError.IllegalMove

/-- The static evaluation "from a given player's perspective": the
source's `_evaluate_board` with the mover index replaced by that player.
Used to compare the leaf values of `_minimax` (which always evaluate from
the perspective of the player to move at the node) with the spec's
searching-player perspective. -/
def staticEvalFrom (g : FishGame) (perspective : Nat) : ℚ :=
  evaluateBoard { g with currentPlayerIndex := perspective }

/-! ### Concrete states used by the witnesses and counterexamples -/

/-- Shorthand for a board entry. -/
def mkTile (r c : Int) (f : Nat) : Coord × Tile :=
  ((r, c), { row := r, col := c, fish := f })

/-- A small mid-game position: player 0 (the computer) has one penguin at
(0,0) on a 6-tile east-west corridor, and player 1 has one penguin at
(5,0), a tile with no present neighbour: player 1 can never move. -/
def gameCorridor : FishGame :=
  { tiles := [mkTile 0 0 1, mkTile 0 1 1, mkTile 0 2 1, mkTile 0 3 1,
              mkTile 0 4 1, mkTile 0 5 1, mkTile 5 0 1]
    penguinPositions := [(((0 : Int), (0 : Int)), 0), (((5 : Int), (0 : Int)), 1)]
    players := [
      { name := "AI", color := "red", age := 30, isAI := true, fishCount := 0,
        penguins := [((0 : Int), (0 : Int))] },
      { name := "Human", color := "blue", age := 25, isAI := false, fishCount := 0,
        penguins := [((5 : Int), (0 : Int))] }]
    currentPlayerIndex := 0
    gamePhase := GamePhase.PLAYING
    selectedPenguin := none
    validMoves := []
    minimaxDepth := 3 }

/-- A two-tile position with player 0's penguin selected: the stored
`valid_moves` list is exactly the recomputed one, `[(0, 1)]`. -/
def gameTwoTiles : FishGame :=
  { tiles := [mkTile 0 0 3, mkTile 0 1 1]
    penguinPositions := [(((0 : Int), (0 : Int)), 0)]
    players := [
      { name := "P1", color := "red", age := 20, isAI := false, fishCount := 0,
        penguins := [((0 : Int), (0 : Int))] },
      { name := "P2", color := "blue", age := 21, isAI := false, fishCount := 0,
        penguins := [] }]
    currentPlayerIndex := 0
    gamePhase := GamePhase.PLAYING
    selectedPenguin := some ((0 : Int), (0 : Int))
    validMoves := [((0 : Int), (1 : Int))]
    minimaxDepth := 3 }

/-- A placing-phase position with one tile and one placed penguin. -/
def gamePlacing : FishGame :=
  { tiles := [mkTile 0 0 2]
    penguinPositions := [(((0 : Int), (0 : Int)), 0)]
    players := [
      { name := "P1", color := "red", age := 20, isAI := false, fishCount := 0,
        penguins := [((0 : Int), (0 : Int))] },
      { name := "P2", color := "blue", age := 21, isAI := false, fishCount := 0,
        penguins := [] }]
    currentPlayerIndex := 1
    gamePhase := GamePhase.PLACING_PENGUINS
    selectedPenguin := none
    validMoves := []
    minimaxDepth := 3 }

/-- A finished position with no penguins at all and unequal scores; the
player to move is player 1.  Used to show the leaf evaluation follows the
node's mover, not the searching player. -/
def gameScoresOnly : FishGame :=
  { tiles := []
    penguinPositions := []
    players := [
      { name := "A", color := "red", age := 20, isAI := true, fishCount := 0, penguins := [] },
      { name := "B", color := "blue", age := 21, isAI := false, fishCount := 10, penguins := [] }]
    currentPlayerIndex := 1
    gamePhase := GamePhase.PLAYING
    selectedPenguin := none
    validMoves := []
    minimaxDepth := 3 }

/-- The fresh two-player placing-phase state used as a concrete reachable
state. -/
def gameFresh : FishGame :=
  { tiles := [mkTile 0 0 1, mkTile 0 1 2]
    penguinPositions := []
    players := [
      { name := "P1", color := "red", age := 20, isAI := false, fishCount := 0, penguins := [] },
      { name := "P2", color := "blue", age := 21, isAI := true, fishCount := 0, penguins := [] }]
    currentPlayerIndex := 0
    gamePhase := GamePhase.PLACING_PENGUINS
    selectedPenguin := none
    validMoves := []
    minimaxDepth := 3 }

/-! ### Association-list (Python dict) lemmas -/

theorem lookup_cons (a : Coord) (b : α) (tl : List (Coord × α)) (c : Coord) :
    ((a, b) :: tl).lookup c = if c = a then some b else tl.lookup c := by
  show (match c == a with | true => some b | false => tl.lookup c) = _
  by_cases h : c = a
  · simp [h]
  · have hb : (c == a) = false := beq_eq_false_iff_ne.mpr h
    simp [hb, h]

theorem lookup_eq_none_of_not_mem_keys {l : List (Coord × α)} {c : Coord}
    (h : c ∉ l.map Prod.fst) : l.lookup c = none := by
  induction l with
  | nil => rfl
  | cons hd tl ih =>
    obtain ⟨a, b⟩ := hd
    simp only [List.map_cons, List.mem_cons] at h
    push_neg at h
    rw [lookup_cons, if_neg h.1]
    exact ih h.2

theorem mem_keys_of_lookup_isSome {l : List (Coord × α)} {c : Coord}
    (h : (l.lookup c).isSome = true) : c ∈ l.map Prod.fst := by
  by_contra hc
  rw [lookup_eq_none_of_not_mem_keys hc] at h
  simp at h

theorem lookup_dictErase (l : List (Coord × α)) (k c : Coord) :
    (dictErase l k).lookup c = if c = k then none else l.lookup c := by
  induction l with
  | nil => simp [dictErase]
  | cons hd tl ih =>
    obtain ⟨a, b⟩ := hd
    by_cases hak : a = k
    · subst hak
      have h1 : dictErase ((a, b) :: tl) a = dictErase tl a := by
        simp [dictErase, List.filter_cons]
      rw [h1, ih]
      by_cases hck : c = a
      · simp [hck]
      · rw [if_neg hck, if_neg hck, lookup_cons, if_neg hck]
    · have h1 : dictErase ((a, b) :: tl) k = (a, b) :: dictErase tl k := by
        simp [dictErase, List.filter_cons, hak]
      rw [h1, lookup_cons, lookup_cons]
      by_cases hca : c = a
      · have hck : c ≠ k := by rw [hca]; exact hak
        rw [if_pos hca, if_pos hca, if_neg hck]
      · rw [if_neg hca, if_neg hca, ih]

theorem lookup_append (l1 l2 : List (Coord × α)) (c : Coord) :
    (l1 ++ l2).lookup c =
      match l1.lookup c with
      | some v => some v
      | none => l2.lookup c := by
  induction l1 with
  | nil => rfl
  | cons hd tl ih =>
    obtain ⟨a, b⟩ := hd
    rw [List.cons_append, lookup_cons, lookup_cons]
    by_cases hca : c = a
    · rw [if_pos hca, if_pos hca]
    · rw [if_neg hca, if_neg hca, ih]

theorem lookup_map_replace (l : List (Coord × α)) (k c : Coord) (v : α) :
    ((l.map (fun p => if p.1 = k then (k, v) else p)).lookup c) =
      if c = k then (if (l.lookup k).isSome then some v else none)
      else l.lookup c := by
  induction l with
  | nil => simp [List.lookup]
  | cons hd tl ih =>
    obtain ⟨a, b⟩ := hd
    by_cases hak : a = k
    · subst hak
      rw [List.map_cons, if_pos rfl, lookup_cons, lookup_cons, lookup_cons]
      by_cases hck : c = a
      · simp [hck]
      · rw [if_neg hck, if_neg hck, if_neg hck, ih, if_neg hck]
    · rw [List.map_cons, if_neg hak, lookup_cons, lookup_cons, lookup_cons]
      by_cases hca : c = a
      · have hck : c ≠ k := by rw [hca]; exact hak
        rw [if_pos hca, if_pos hca, if_neg hck]
      · rw [if_neg hca, if_neg hca, ih]
        by_cases hck : c = k
        · have hka : k ≠ a := fun h => hak h.symm
          rw [if_pos hck, if_pos hck, if_neg hka]
        · rw [if_neg hck, if_neg hck]

theorem lookup_dictInsert (l : List (Coord × α)) (k c : Coord) (v : α) :
    (dictInsert l k v).lookup c = if c = k then some v else l.lookup c := by
  unfold dictInsert
  by_cases hmem : (l.lookup k).isSome
  · rw [if_pos hmem, lookup_map_replace, if_pos hmem]
  · rw [if_neg hmem, lookup_append]
    by_cases hck : c = k
    · subst hck
      have hnone : l.lookup c = none := by
        cases h : l.lookup c with
        | none => rfl
        | some w => rw [h] at hmem; simp at hmem
      rw [hnone, lookup_cons]
      simp
    · cases h : l.lookup c with
      | none => rw [lookup_cons, if_neg hck]; simp [hck]
      | some w => simp [hck]

/-! ### The straight-line walk of `_get_valid_moves` -/

theorem dirMeasure_hexNeighbor (d : Dir) (c : Coord) :
    dirMeasure d (hexNeighbor d c) = dirMeasure d c + 1 := by
  cases d <;> (unfold hexNeighbor dirMeasure; by_cases h : c.2 % 2 = 0 <;> simp [h] <;> ring)

theorem dirMeasure_stepN (d : Dir) (n : Nat) (c : Coord) :
    dirMeasure d (stepN d n c) = dirMeasure d c + n := by
  induction n generalizing c with
  | zero => simp [stepN]
  | succ m ih =>
    show dirMeasure d (stepN d m (hexNeighbor d c)) = _
    rw [ih, dirMeasure_hexNeighbor]
    push_cast
    ring

theorem stepN_injOn (d : Dir) (c : Coord) {m n : Nat}
    (h : stepN d m c = stepN d n c) : m = n := by
  have hm := dirMeasure_stepN d m c
  have hn := dirMeasure_stepN d n c
  rw [h, hn] at hm
  omega

theorem stepN_ne_start (d : Dir) (c : Coord) {n : Nat} (hn : 1 ≤ n) :
    stepN d n c ≠ c := by
  intro h
  have h0 : stepN d 0 c = c := rfl
  have := stepN_injOn d c (h.trans h0.symm)
  omega

theorem stepN_succ_shift (d : Dir) (n : Nat) (c : Coord) :
    stepN d (n + 1) c = stepN d n (hexNeighbor d c) := rfl

/-- Membership in a single-direction trace: exactly the iterates whose
whole prefix (the cell itself included) is a present, unoccupied tile. -/
theorem mem_traceDir (g : FishGame) (d : Dir) :
    ∀ (fuel : Nat) (c0 x : Coord),
      (x ∈ traceDir g d c0 fuel ↔
        ∃ m : Nat, m < fuel ∧ x = stepN d m c0 ∧
          ∀ k : Nat, k ≤ m →
            hasTile g (stepN d k c0) = true ∧ occupiedAt g (stepN d k c0) = false) := by
  intro fuel
  induction fuel with
  | zero =>
    intro c0 x
    simp [traceDir]
  | succ f ih =>
    intro c0 x
    unfold traceDir
    by_cases ht : hasTile g c0 = true
    · by_cases ho : occupiedAt g c0 = true
      · rw [if_neg (not_not_intro ht), if_pos ho]
        simp only [List.not_mem_nil, false_iff]
        rintro ⟨m, _, _, hok⟩
        have h0 : occupiedAt g c0 = false := (hok 0 (Nat.zero_le m)).2
        rw [h0] at ho
        exact Bool.false_ne_true ho
      · have ho' : occupiedAt g c0 = false := by simpa using ho
        rw [if_neg (not_not_intro ht), if_neg ho]
        constructor
        · intro h
          rcases List.mem_cons.mp h with h0 | hrest
          · refine ⟨0, Nat.succ_pos f, h0, ?_⟩
            intro k hk
            interval_cases k
            exact ⟨ht, ho'⟩
          · obtain ⟨m, hmf, hx, hok⟩ := (ih (hexNeighbor d c0) x).mp hrest
            refine ⟨m + 1, by omega, ?_, ?_⟩
            · rw [stepN_succ_shift]; exact hx
            · intro k hk
              cases k with
              | zero => exact ⟨ht, ho'⟩
              | succ j =>
                rw [stepN_succ_shift]
                exact hok j (by omega)
        · rintro ⟨m, hmf, hx, hok⟩
          cases m with
          | zero => exact List.mem_cons.mpr (Or.inl hx)
          | succ j =>
            refine List.mem_cons.mpr (Or.inr ((ih (hexNeighbor d c0) x).mpr ?_))
            refine ⟨j, by omega, by rw [← stepN_succ_shift]; exact hx, ?_⟩
            intro k hk
            rw [← stepN_succ_shift]
            exact hok (k + 1) (by omega)
    · rw [if_pos ht]
      simp only [List.not_mem_nil, false_iff]
      rintro ⟨m, _, _, hok⟩
      exact ht (hok 0 (Nat.zero_le m)).1

theorem mem_dirList (d : Dir) : d ∈ dirList := by
  cases d <;> simp [dirList]

/-- A line of `n` tiles is at most as long as the tile dict: the iterates
are pairwise distinct and each is a key of the dict. -/
theorem line_length_le (g : FishGame) (d : Dir) (start : Coord) (n : Nat)
    (hok : ∀ k : Nat, 1 ≤ k → k ≤ n → hasTile g (stepN d k start) = true) :
    n ≤ g.tiles.length := by
  classical
  set f : Nat → Coord := fun k => stepN d (k + 1) start with hf
  have hinj : Function.Injective f := by
    intro i j hij
    have := stepN_injOn d start hij
    omega
  set l : List Coord := (List.range n).map f with hl
  have hnodup : l.Nodup := (List.nodup_range n).map hinj
  have hsub : ∀ x ∈ l, x ∈ g.tiles.map Prod.fst := by
    intro x hx
    rw [hl, List.mem_map] at hx
    obtain ⟨k, hk, rfl⟩ := hx
    rw [List.mem_range] at hk
    apply mem_keys_of_lookup_isSome
    exact hok (k + 1) (by omega) (by omega)
  have hcard : l.toFinset.card = n := by
    rw [List.toFinset_card_of_nodup hnodup, hl, List.length_map, List.length_range]
  have hsub2 : l.toFinset ⊆ (g.tiles.map Prod.fst).toFinset := by
    intro x hx
    rw [List.mem_toFinset] at hx ⊢
    exact hsub x hx
  have := Finset.card_le_card hsub2
  rw [hcard] at this
  calc n ≤ (g.tiles.map Prod.fst).toFinset.card := this
    _ ≤ (g.tiles.map Prod.fst).length := List.toFinset_card_le _
    _ = g.tiles.length := List.length_map _ _

/-- The full characterisation of `_get_valid_moves`: a cell is returned
iff it is a positive number of steps along one fixed direction label and
the whole line up to and including it consists of present, unoccupied
tiles. -/
theorem mem_getValidMoves (g : FishGame) (start x : Coord) :
    x ∈ getValidMoves g start ↔
      ∃ d : Dir, ∃ n : Nat, 1 ≤ n ∧ x = stepN d n start ∧
        ∀ k : Nat, 1 ≤ k → k ≤ n →
          hasTile g (stepN d k start) = true ∧ occupiedAt g (stepN d k start) = false := by
  unfold getValidMoves
  rw [List.mem_flatten]
  constructor
  · rintro ⟨tr, htr, hx⟩
    rw [List.mem_map] at htr
    obtain ⟨d, _, rfl⟩ := htr
    obtain ⟨m, _, hxs, hok⟩ := (mem_traceDir g d (moveFuel g) (hexNeighbor d start) x).mp hx
    refine ⟨d, m + 1, by omega, by rw [stepN_succ_shift]; exact hxs, ?_⟩
    intro k hk1 hk2
    cases k with
    | zero => omega
    | succ j =>
      rw [stepN_succ_shift]
      exact hok j (by omega)
  · rintro ⟨d, n, hn, hx, hok⟩
    refine ⟨traceDir g d (hexNeighbor d start) (moveFuel g),
      List.mem_map.mpr ⟨d, mem_dirList d, rfl⟩, ?_⟩
    have hlen : n ≤ g.tiles.length :=
      line_length_le g d start n (fun k h1 h2 => (hok k h1 h2).1)
    refine (mem_traceDir g d (moveFuel g) (hexNeighbor d start) x).mpr
      ⟨n - 1, by unfold moveFuel; omega, ?_, ?_⟩
    · rw [← stepN_succ_shift]
      have : n - 1 + 1 = n := by omega
      rw [this]
      exact hx
    · intro k hk
      rw [← stepN_succ_shift]
      exact hok (k + 1) (by omega) (by omega)

/-- The returned cells are never the start, never holes, never occupied. -/
theorem mem_getValidMoves_props (g : FishGame) (start x : Coord)
    (h : x ∈ getValidMoves g start) :
    x ≠ start ∧ hasTile g x = true ∧ occupiedAt g x = false := by
  obtain ⟨d, n, hn, hx, hok⟩ := (mem_getValidMoves g start x).mp h
  refine ⟨?_, ?_, ?_⟩
  · rw [hx]; exact stepN_ne_start d start hn
  · rw [hx]; exact (hok n hn le_rfl).1
  · rw [hx]; exact (hok n hn le_rfl).2

/-! ### Player-list update lemmas -/

theorem get?_modifyPlayer (ps : List Player) (i : Nat) (f : Player → Player) (j : Nat) :
    (modifyPlayer ps i f).get? j = if j = i then (ps.get? j).map f else ps.get? j := by
  unfold modifyPlayer
  rw [List.get?_eq_getElem?, List.get?_eq_getElem?, List.getElem?_modify]
  by_cases h : i = j
  · subst h
    simp [Option.map]
  · rw [if_neg (fun hji => h hji.symm)]
    cases ps[j]? with
    | none => rfl
    | some p => simp [Option.map, h]

theorem length_modifyPlayer (ps : List Player) (i : Nat) (f : Player → Player) :
    (modifyPlayer ps i f).length = ps.length := by
  unfold modifyPlayer
  exact List.length_modify ..

/-- What `_move_penguin` does when the mover really stands on a tile and
the target is a freshly computed valid move. -/
theorem movePenguin_spec (g : FishGame) (fromPos toPos : Coord) (i : Nat)
    (pl : Player) (t : Tile)
    (hpos : g.penguinPositions.lookup fromPos = some i)
    (hpl : g.players.get? i = some pl)
    (ht : g.tiles.lookup fromPos = some t)
    (hmv : toPos ∈ getValidMoves g fromPos)
    (hnd : pl.penguins.Nodup) :
    ∃ g', movePenguin g fromPos toPos = some g' ∧
      g'.tiles.lookup fromPos = none ∧
      (∀ c, c ≠ fromPos → g'.tiles.lookup c = g.tiles.lookup c) ∧
      g'.penguinPositions.lookup toPos = some i ∧
      g'.penguinPositions.lookup fromPos = none ∧
      (∀ c, c ≠ fromPos → c ≠ toPos →
        g'.penguinPositions.lookup c = g.penguinPositions.lookup c) ∧
      (∃ pl', g'.players.get? i = some pl' ∧
        pl'.fishCount = pl.fishCount + (t.fish : Int) ∧
        (∀ x, x ∈ pl'.penguins ↔ (x = toPos ∨ (x ∈ pl.penguins ∧ x ≠ fromPos)))) ∧
      (∀ j, j ≠ i → g'.players.get? j = g.players.get? j) ∧
      g'.currentPlayerIndex = g.currentPlayerIndex ∧
      g'.gamePhase = g.gamePhase := by
  obtain ⟨hne, _, hocc⟩ := mem_getValidMoves_props g fromPos toPos hmv
  refine ⟨{ g with
      tiles := dictErase g.tiles fromPos,
      penguinPositions := dictInsert (dictErase g.penguinPositions fromPos) toPos i,
      players := modifyPlayer
        (modifyPlayer g.players i
          (fun p => { p with fishCount := p.fishCount + (t.fish : Int) })) i
        (fun p => { p with penguins := p.penguins.erase fromPos ++ [toPos] }) }, ?_, ?_⟩
  · simp [movePenguin, removeTile, hpos, ht]
  · refine ⟨?_, ?_, ?_, ?_, ?_, ?_, ?_, ?_, rfl⟩
    · show (dictErase g.tiles fromPos).lookup fromPos = none
      rw [lookup_dictErase, if_pos rfl]
    · intro c hc
      show (dictErase g.tiles fromPos).lookup c = _
      rw [lookup_dictErase, if_neg hc]
    · show (dictInsert (dictErase g.penguinPositions fromPos) toPos i).lookup toPos = some i
      rw [lookup_dictInsert, if_pos rfl]
    · show (dictInsert (dictErase g.penguinPositions fromPos) toPos i).lookup fromPos = none
      rw [lookup_dictInsert, if_neg (Ne.symm hne), lookup_dictErase, if_pos rfl]
    · intro c hcf hct
      show (dictInsert (dictErase g.penguinPositions fromPos) toPos i).lookup c = _
      rw [lookup_dictInsert, if_neg hct, lookup_dictErase, if_neg hcf]
    · refine ⟨Player.mk pl.name pl.color pl.age pl.isAI
        (pl.fishCount + (t.fish : Int)) (pl.penguins.erase fromPos ++ [toPos]), ?_, rfl, ?_⟩
      · show (modifyPlayer (modifyPlayer g.players i _) i _).get? i = _
        rw [get?_modifyPlayer, if_pos rfl, get?_modifyPlayer, if_pos rfl, hpl]
        rfl
      · intro x
        show x ∈ pl.penguins.erase fromPos ++ [toPos] ↔ _
        rw [List.mem_append, List.mem_singleton, hnd.mem_erase_iff, or_comm]
        constructor
        · rintro (hx | ⟨hxf, hxm⟩)
          · exact Or.inl hx
          · exact Or.inr ⟨hxm, hxf⟩
        · rintro (hx | ⟨hxm, hxf⟩)
          · exact Or.inl hx
          · exact Or.inr ⟨hxf, hxm⟩
    · intro j hj
      show (modifyPlayer (modifyPlayer g.players i _) i _).get? j = _
      rw [get?_modifyPlayer, if_neg hj, get?_modifyPlayer, if_neg hj]
    · rfl

/-! ### Symmetry of the temporary move and its undo -/

theorem perm_erase_append_self (l : List Coord) (a : Coord) (h : a ∈ l) :
    (l.erase a ++ [a]).Perm l := by
  induction l with
  | nil => cases h
  | cons b tl ih =>
    by_cases hba : b = a
    · subst hba
      rw [List.erase_cons_head]
      exact List.perm_append_singleton b tl
    · have hmem : a ∈ tl := by
        rcases List.mem_cons.mp h with h1 | h1
        · exact absurd h1.symm hba
        · exact h1
      have hba' : (b == a) = false := beq_eq_false_iff_ne.mpr hba
      rw [List.erase_cons, hba', if_neg Bool.false_ne_true, List.cons_append]
      exact (ih hmem).cons b

/-- After `_make_temp_move`, `_undo_temp_move` restores the tile map and
the position map pointwise, every other player's record exactly, the
moving player's score exactly and their penguin list up to order, and
leaves the mover index and phase untouched. -/
theorem makeTempMove_undoTempMove (g : FishGame) (fromPos toPos : Coord)
    (i : Nat) (pl : Player) (t : Tile) (g1 : FishGame) (fish : Nat)
    (hpos : g.penguinPositions.lookup fromPos = some i)
    (hto : g.penguinPositions.lookup toPos = none)
    (hpl : g.players.get? i = some pl)
    (ht : g.tiles.lookup fromPos = some t)
    (htr : t.row = fromPos.1) (htc : t.col = fromPos.2) (hte : t.existsFlag = true)
    (hmem : fromPos ∈ pl.penguins)
    (hnotmem : toPos ∉ pl.penguins)
    (hrun : makeTempMove g fromPos toPos = (g1, fish)) :
    fish = t.fish ∧
    (∀ c, (undoTempMove g1 fromPos toPos fish).tiles.lookup c = g.tiles.lookup c) ∧
    (∀ c, (undoTempMove g1 fromPos toPos fish).penguinPositions.lookup c =
      g.penguinPositions.lookup c) ∧
    (∀ j, j ≠ i → (undoTempMove g1 fromPos toPos fish).players.get? j = g.players.get? j) ∧
    (∃ pl', (undoTempMove g1 fromPos toPos fish).players.get? i = some pl' ∧
      pl'.fishCount = pl.fishCount ∧ pl'.penguins.Perm pl.penguins ∧
      pl'.name = pl.name ∧ pl'.color = pl.color ∧ pl'.age = pl.age ∧ pl'.isAI = pl.isAI) ∧
    (undoTempMove g1 fromPos toPos fish).currentPlayerIndex = g.currentPlayerIndex ∧
    (undoTempMove g1 fromPos toPos fish).gamePhase = g.gamePhase := by
  have hne : fromPos ≠ toPos := by
    intro h
    rw [h, hto] at hpos
    exact Option.noConfusion hpos
  have hg1 : g1 = { g with
      tiles := dictErase g.tiles fromPos,
      penguinPositions := dictInsert (dictErase g.penguinPositions fromPos) toPos i,
      players := modifyPlayer
        (modifyPlayer g.players i
          (fun p => { p with fishCount := p.fishCount + (t.fish : Int) })) i
        (fun p => { p with penguins := p.penguins.erase fromPos ++ [toPos] }) } ∧
      fish = t.fish := by
    have hrun' := hrun
    simp only [makeTempMove, removeTile, hpos, ht] at hrun'
    rw [Prod.mk.injEq] at hrun'
    exact ⟨hrun'.1.symm, hrun'.2.symm⟩
  obtain ⟨hg1, hfish⟩ := hg1
  subst hg1 hfish
  have hlater : ∀ c, (dictInsert (dictErase g.penguinPositions fromPos) toPos i).lookup c =
      if c = toPos then some i else if c = fromPos then none else g.penguinPositions.lookup c := by
    intro c
    rw [lookup_dictInsert, lookup_dictErase]
  have hlookto : (dictInsert (dictErase g.penguinPositions fromPos) toPos i).lookup toPos
      = some i := by rw [hlater, if_pos rfl]
  rw [undoTempMove]
  simp only [hlookto]
  refine ⟨by simp, ?_, ?_, ?_, ?_, by simp, by simp⟩
  · intro c
    show (dictInsert (dictErase g.tiles fromPos) fromPos _).lookup c = _
    rw [lookup_dictInsert]
    by_cases hcf : c = fromPos
    · rw [if_pos hcf, hcf, ht]
      have : t = Tile.mk t.row t.col t.fish t.existsFlag := rfl
      rw [htr, htc, hte] at this
      rw [← this]
    · rw [if_neg hcf, lookup_dictErase, if_neg hcf]
  · intro c
    show (dictInsert (dictErase (dictInsert (dictErase g.penguinPositions fromPos) toPos i)
      toPos) fromPos i).lookup c = _
    rw [lookup_dictInsert]
    by_cases hcf : c = fromPos
    · rw [if_pos hcf, hcf, hpos]
    · rw [if_neg hcf, lookup_dictErase]
      by_cases hct : c = toPos
      · rw [if_pos hct, hct, hto]
      · rw [if_neg hct, hlater, if_neg hct, if_neg hcf]
  · intro j hj
    show (modifyPlayer (modifyPlayer (modifyPlayer (modifyPlayer g.players i _) i _) i _) i _).get? j = _
    rw [get?_modifyPlayer, if_neg hj, get?_modifyPlayer, if_neg hj,
      get?_modifyPlayer, if_neg hj, get?_modifyPlayer, if_neg hj]
  · have hget : (modifyPlayer (modifyPlayer (modifyPlayer (modifyPlayer g.players i
        (fun p => { p with fishCount := p.fishCount + (t.fish : Int) })) i
        (fun p => { p with penguins := p.penguins.erase fromPos ++ [toPos] })) i
        (fun p => { p with fishCount := p.fishCount - (t.fish : Int) })) i
        (fun p => { p with penguins := p.penguins.erase toPos ++ [fromPos] })).get? i =
        some { pl with
          fishCount := pl.fishCount + (t.fish : Int) - (t.fish : Int),
          penguins := (pl.penguins.erase fromPos ++ [toPos]).erase toPos ++ [fromPos] } := by
      rw [get?_modifyPlayer, if_pos rfl, get?_modifyPlayer, if_pos rfl,
        get?_modifyPlayer, if_pos rfl, get?_modifyPlayer, if_pos rfl, hpl]
      rfl
    refine ⟨_, hget, by simp, ?_, rfl, rfl, rfl, rfl⟩
    show ((pl.penguins.erase fromPos ++ [toPos]).erase toPos ++ [fromPos]).Perm pl.penguins
    have hnotmem2 : toPos ∉ pl.penguins.erase fromPos :=
      fun h => hnotmem (List.mem_of_mem_erase h)
    rw [List.erase_append_right _ hnotmem2, List.erase_cons_head, List.append_nil]
    exact perm_erase_append_self pl.penguins fromPos hmem

/-! ### The AI driver: helper lemmas -/

theorem foldl_invariant {σ α : Type} (f : σ → α → σ) (P : σ → Prop) :
    ∀ (l : List α) (s : σ), P s → (∀ s' a, a ∈ l → P s' → P (f s' a)) →
      P (l.foldl f s) := by
  intro l
  induction l with
  | nil => intro s hs _; exact hs
  | cons a tl ih =>
    intro s hs hstep
    exact ih (f s a) (hstep s a (List.mem_cons_self a tl) hs)
      (fun s' b hb => hstep s' b (List.mem_cons_of_mem a hb))

/-- When the mover has no valid move at all, the candidate list is empty
and the AI returns no move. -/
theorem aiMakeMove_eq_none_of_no_moves (g : FishGame) (cur : Player)
    (hcur : g.players.get? g.currentPlayerIndex = some cur)
    (h : ∀ pos ∈ cur.penguins, getValidMoves g pos = []) :
    aiMakeMove g = none := by
  unfold aiMakeMove
  rw [hcur]
  have hcand : cur.penguins.flatMap
      (fun pos => (getValidMoves g pos).map (fun m => (pos, m))) = [] := by
    rw [List.eq_nil_iff_forall_not_mem]
    intro x hx
    rw [List.mem_flatMap] at hx
    obtain ⟨pos, hpos, hxm⟩ := hx
    rw [h pos hpos] at hxm
    simp at hxm
  simp only [Option.getD_some, hcand, List.foldl_nil]

theorem foldl_best_none_or_mem {α γ : Type}
    (f : (γ × Option α × γ) → α → (γ × Option α × γ))
    (hf : ∀ s a, (f s a).2.1 = s.2.1 ∨ (f s a).2.1 = some a)
    (l : List α) (init : γ × Option α × γ) (hinit : init.2.1 = none)
    (pm : α) (hres : (l.foldl f init).2.1 = some pm) : pm ∈ l := by
  have hinv := foldl_invariant f
    (fun st => st.2.1 = none ∨ ∃ q, q ∈ l ∧ st.2.1 = some q)
    l init (Or.inl hinit)
    (fun s a ha hP => by
      rcases hf s a with h | h
      · rw [h]; exact hP
      · rw [h]; exact Or.inr ⟨a, ha, rfl⟩)
  simp only at hinv
  rw [hres] at hinv
  rcases hinv with h1 | ⟨q, hq, h2⟩
  · exact Option.noConfusion h1
  · cases Option.some_inj.mp h2
    exact hq

/-- Any move the AI returns pairs one of the mover's penguins with one of
its freshly computed valid moves. -/
theorem aiMakeMove_mem (g : FishGame) (cur : Player)
    (hcur : g.players.get? g.currentPlayerIndex = some cur)
    (pm : Coord × Coord) (hres : aiMakeMove g = some pm) :
    pm.1 ∈ cur.penguins ∧ pm.2 ∈ getValidMoves g pm.1 := by
  unfold aiMakeMove at hres
  rw [hcur] at hres
  simp only [Option.getD_some] at hres
  have hq : pm ∈ cur.penguins.flatMap
      (fun pos => (getValidMoves g pos).map (fun m => (pos, m))) := by
    refine foldl_best_none_or_mem _ ?_ _ (XVal.ninf, none, XVal.ninf) rfl pm hres
    intro s a
    dsimp only
    split
    · exact Or.inr rfl
    · exact Or.inl rfl
  rw [List.mem_flatMap] at hq
  obtain ⟨pos, hpos, hin⟩ := hq
  rw [List.mem_map] at hin
  obtain ⟨m, hmm, hpm⟩ := hin
  cases hpm
  exact ⟨hpos, hmm⟩

/-! ### Turn rotation -/

theorem nextTurnLoop_lt (g : FishGame) (hlen : 0 < g.players.length) :
    ∀ (fuel idx idx1 : Nat), nextTurnLoop g idx fuel = some idx1 →
      idx1 < g.players.length := by
  intro fuel
  induction fuel with
  | zero => intro idx idx1 h; exact Option.noConfusion h
  | succ f ih =>
    intro idx idx1 h
    unfold nextTurnLoop at h
    by_cases hc : playerCanMove g ((idx + 1) % g.players.length) = true
    · rw [if_pos hc] at h
      cases Option.some_inj.mp h
      exact Nat.mod_lt _ hlen
    · rw [if_neg hc] at h
      exact ih _ _ h

theorem nextTurn_fields (g : FishGame) :
    (nextTurn g).tiles = g.tiles ∧
    (nextTurn g).penguinPositions = g.penguinPositions ∧
    (nextTurn g).players = g.players ∧
    (nextTurn g).selectedPenguin = g.selectedPenguin ∧
    (nextTurn g).validMoves = g.validMoves := by
  unfold nextTurn
  cases nextTurnLoop g g.currentPlayerIndex g.players.length with
  | none => exact ⟨rfl, rfl, rfl, rfl, rfl⟩
  | some idx1 => exact ⟨rfl, rfl, rfl, rfl, rfl⟩

theorem nextTurn_index_lt (g : FishGame) (hlen : 0 < g.players.length)
    (hidx : g.currentPlayerIndex < g.players.length) :
    (nextTurn g).currentPlayerIndex < (nextTurn g).players.length := by
  unfold nextTurn
  cases h : nextTurnLoop g g.currentPlayerIndex g.players.length with
  | none => exact hidx
  | some idx1 => exact nextTurnLoop_lt g hlen _ _ _ h

/-! ### The token-disjointness invariant -/

/-- The core state invariant: the `penguin_positions` dict and the
per-player `penguins` lists describe the same, conflict-free occupancy;
the penguin lists have no duplicates; the player list is nonempty and the
mover index is in range. -/
def TokensInv (g : FishGame) : Prop :=
  (∀ (c : Coord) (i : Nat), g.penguinPositions.lookup c = some i ↔
    ∃ p, g.players.get? i = some p ∧ c ∈ p.penguins) ∧
  (∀ p ∈ g.players, p.penguins.Nodup) ∧
  0 < g.players.length ∧ g.currentPlayerIndex < g.players.length

theorem TokensInv.not_mem_of_unoccupied {g : FishGame} (hInv : TokensInv g)
    {c : Coord} (hocc : occupiedAt g c = false)
    {j : Nat} {p : Player} (hp : g.players.get? j = some p) : c ∉ p.penguins := by
  intro hmem
  have := (hInv.1 c j).mpr ⟨p, hp, hmem⟩
  unfold occupiedAt at hocc
  rw [this] at hocc
  simp at hocc

theorem tokensInv_placePenguinAt (g : FishGame) (c : Coord)
    (hInv : TokensInv g) (hocc : occupiedAt g c = false) :
    TokensInv (placePenguinAt g c) := by
  have hcons := hInv.1
  have hnd := hInv.2.1
  have hlen := hInv.2.2.1
  have hidx := hInv.2.2.2
  obtain ⟨pl, hpl⟩ : ∃ pl, g.players.get? g.currentPlayerIndex = some pl := by
    cases hq : g.players.get? g.currentPlayerIndex with
    | none => exact absurd (List.get?_eq_none.mp hq) (by omega)
    | some pl => exact ⟨pl, rfl⟩
  have hcfresh : ∀ {j : Nat} {p : Player}, g.players.get? j = some p → c ∉ p.penguins :=
    fun hp => hInv.not_mem_of_unoccupied hocc hp
  have hcons1 : ∀ (x : Coord) (i : Nat),
      (dictInsert g.penguinPositions c g.currentPlayerIndex).lookup x = some i ↔
      ∃ p, (modifyPlayer g.players g.currentPlayerIndex
        (fun p => { p with penguins := p.penguins ++ [c] })).get? i = some p ∧
        x ∈ p.penguins := by
    intro x i
    rw [lookup_dictInsert, get?_modifyPlayer]
    by_cases hxc : x = c
    · rw [if_pos hxc]
      constructor
      · intro h
        cases Option.some_inj.mp h
        rw [if_pos rfl, hpl]
        exact ⟨_, rfl, by
          rw [hxc]
          exact List.mem_append_right _ (List.mem_singleton_self c)⟩
      · rintro ⟨p, hip, hxp⟩
        by_cases hi : i = g.currentPlayerIndex
        · rw [hi]
        · rw [if_neg hi] at hip
          exact absurd (hxc ▸ hxp) (hcfresh hip)
    · rw [if_neg hxc, hcons x i]
      constructor
      · rintro ⟨p, hip, hxp⟩
        by_cases hi : i = g.currentPlayerIndex
        · subst hi
          rw [if_pos rfl, hip]
          exact ⟨_, rfl, List.mem_append_left _ hxp⟩
        · rw [if_neg hi]
          exact ⟨p, hip, hxp⟩
      · rintro ⟨p, hip, hxp⟩
        by_cases hi : i = g.currentPlayerIndex
        · subst hi
          rw [if_pos rfl, hpl] at hip
          cases Option.some_inj.mp hip
          rcases List.mem_append.mp hxp with h | h
          · exact ⟨pl, hpl, h⟩
          · exact absurd (List.mem_singleton.mp h) hxc
        · rw [if_neg hi] at hip
          exact ⟨p, hip, hxp⟩
  have hnd1 : ∀ p ∈ (modifyPlayer g.players g.currentPlayerIndex
      (fun p => { p with penguins := p.penguins ++ [c] })), p.penguins.Nodup := by
    intro p hp
    obtain ⟨n, hn⟩ := List.mem_iff_get?.mp hp
    rw [get?_modifyPlayer] at hn
    by_cases hni : n = g.currentPlayerIndex
    · subst hni
      rw [if_pos rfl, hpl] at hn
      cases Option.some_inj.mp hn
      show (pl.penguins ++ [c]).Nodup
      exact (hnd pl (List.get?_mem hpl)).append (List.nodup_singleton c)
        (fun x hx hxc => (hcfresh hpl) ((List.mem_singleton.mp hxc) ▸ hx))
    · rw [if_neg hni] at hn
      exact hnd p (List.get?_mem hn)
  unfold placePenguinAt
  dsimp only
  rw [length_modifyPlayer]
  split
  · refine ⟨hcons1, hnd1, ?_, ?_⟩ <;> (simp only [length_modifyPlayer]; omega)
  · refine ⟨hcons1, hnd1, ?_, ?_⟩
    · simp only [length_modifyPlayer]; omega
    · simp only [length_modifyPlayer]
      exact Nat.mod_lt _ hlen

theorem tokensInv_handlePenguinPlacement (g : FishGame) (c : Coord)
    (hInv : TokensInv g) : TokensInv (handlePenguinPlacement g c) := by
  unfold handlePenguinPlacement
  by_cases ht : hasTile g c = true
  · rw [if_neg (not_not_intro ht)]
    by_cases ho : occupiedAt g c = true
    · rw [if_pos ho]; exact hInv
    · rw [if_neg ho]
      exact tokensInv_placePenguinAt g c hInv (by simpa using ho)
  · rw [if_pos ht]; exact hInv

theorem tokensInv_movePenguin (g g1 : FishGame) (fromPos toPos : Coord)
    (hInv : TokensInv g) (hto : g.penguinPositions.lookup toPos = none)
    (hmove : movePenguin g fromPos toPos = some g1) : TokensInv g1 := by
  have hcons := hInv.1
  have hnd := hInv.2.1
  have hlen := hInv.2.2.1
  have hidx := hInv.2.2.2
  cases hpos : g.penguinPositions.lookup fromPos with
  | none => rw [movePenguin, hpos] at hmove; exact Option.noConfusion hmove
  | some i =>
  obtain ⟨pl, hpl, hmem⟩ := (hcons fromPos i).mp hpos
  have hne : fromPos ≠ toPos := by
    intro h; rw [h, hto] at hpos; exact Option.noConfusion hpos
  have htonot : ∀ {j : Nat} {p : Player}, g.players.get? j = some p → toPos ∉ p.penguins :=
    fun hp => hInv.not_mem_of_unoccupied (by unfold occupiedAt; rw [hto]; rfl) hp
  have hg1 : g1 = { g with
      tiles := (removeTile g.tiles fromPos).2,
      penguinPositions := dictInsert (dictErase g.penguinPositions fromPos) toPos i,
      players := modifyPlayer
        (modifyPlayer g.players i
          (fun p => { p with fishCount := p.fishCount + ((removeTile g.tiles fromPos).1 : Int) })) i
        (fun p => { p with penguins := p.penguins.erase fromPos ++ [toPos] }) } := by
    rw [movePenguin, hpos] at hmove
    exact (Option.some_inj.mp hmove).symm
  subst hg1
  have hplget : ∀ (j : Nat),
      (modifyPlayer (modifyPlayer g.players i
        (fun p => { p with fishCount := p.fishCount + ((removeTile g.tiles fromPos).1 : Int) })) i
        (fun p => { p with penguins := p.penguins.erase fromPos ++ [toPos] })).get? j =
      if j = i then
        (g.players.get? j).map (fun p =>
          { p with fishCount := p.fishCount + ((removeTile g.tiles fromPos).1 : Int),
                   penguins := p.penguins.erase fromPos ++ [toPos] })
      else g.players.get? j := by
    intro j
    rw [get?_modifyPlayer, get?_modifyPlayer]
    by_cases hj : j = i
    · rw [if_pos hj, if_pos hj, if_pos hj]
      cases g.players.get? j <;> rfl
    · rw [if_neg hj, if_neg hj, if_neg hj]
  have hndpl := hnd pl (List.get?_mem hpl)
  refine ⟨?_, ?_, by simpa only [length_modifyPlayer] using hlen,
    by simpa only [length_modifyPlayer] using hidx⟩
  · intro x j
    show (dictInsert (dictErase g.penguinPositions fromPos) toPos i).lookup x = some j ↔ _
    rw [lookup_dictInsert, lookup_dictErase]
    show _ ↔ ∃ p, (modifyPlayer (modifyPlayer _ _ _) _ _).get? j = some p ∧ x ∈ p.penguins
    rw [hplget]
    by_cases hxt : x = toPos
    · rw [if_pos hxt]
      constructor
      · intro h
        cases Option.some_inj.mp h
        rw [if_pos rfl, hpl]
        refine ⟨_, rfl, ?_⟩
        show x ∈ pl.penguins.erase fromPos ++ [toPos]
        exact List.mem_append_right _ (hxt ▸ List.mem_singleton_self toPos)
      · rintro ⟨p, hip, hxp⟩
        by_cases hj : j = i
        · rw [hj]
        · rw [if_neg hj] at hip
          exact absurd (hxt ▸ hxp) (htonot hip)
    · rw [if_neg hxt]
      by_cases hxf : x = fromPos
      · rw [if_pos hxf]
        constructor
        · intro h; exact Option.noConfusion h
        · rintro ⟨p, hip, hxp⟩
          by_cases hj : j = i
          · subst hj
            rw [if_pos rfl, hpl] at hip
            cases Option.some_inj.mp hip
            rcases List.mem_append.mp hxp with h | h
            · rw [hxf] at h
              exact absurd rfl (hndpl.mem_erase_iff.mp h).1
            · exact absurd (List.mem_singleton.mp h) hxt
          · rw [if_neg hj] at hip
            have : g.penguinPositions.lookup x = some j := (hcons x j).mpr ⟨p, hip, hxp⟩
            rw [hxf, hpos] at this
            exact (hj (Option.some_inj.mp this).symm).elim
      · rw [if_neg hxf, hcons x j]
        constructor
        · rintro ⟨p, hip, hxp⟩
          by_cases hj : j = i
          · subst hj
            rw [if_pos rfl, hip]
            refine ⟨_, rfl, ?_⟩
            show x ∈ _
            cases Option.some_inj.mp (hip.symm.trans hpl)
            exact List.mem_append_left _ (hndpl.mem_erase_iff.mpr ⟨hxf, hxp⟩)
          · rw [if_neg hj]
            exact ⟨p, hip, hxp⟩
        · rintro ⟨p, hip, hxp⟩
          by_cases hj : j = i
          · subst hj
            rw [if_pos rfl, hpl] at hip
            cases Option.some_inj.mp hip
            rcases List.mem_append.mp hxp with h | h
            · exact ⟨pl, hpl, List.mem_of_mem_erase h⟩
            · exact absurd (List.mem_singleton.mp h) hxt
          · rw [if_neg hj] at hip
            exact ⟨p, hip, hxp⟩
  · intro p hp
    obtain ⟨n, hn⟩ := List.mem_iff_get?.mp hp
    rw [hplget] at hn
    by_cases hni : n = i
    · subst hni
      rw [if_pos rfl, hpl] at hn
      cases Option.some_inj.mp hn
      show (pl.penguins.erase fromPos ++ [toPos]).Nodup
      refine (hndpl.erase fromPos).append (List.nodup_singleton toPos) ?_
      intro x hx hxt
      rw [List.mem_singleton.mp hxt] at hx
      exact htonot hpl (List.mem_of_mem_erase hx)
    · rw [if_neg hni] at hn
      exact hnd p (List.get?_mem hn)

theorem tokensInv_of_fields_eq (g g1 : FishGame)
    (hpos : g1.penguinPositions = g.penguinPositions)
    (hpl : g1.players = g.players)
    (hidx : g1.currentPlayerIndex = g.currentPlayerIndex)
    (hInv : TokensInv g) : TokensInv g1 := by
  refine ⟨?_, ?_, ?_, ?_⟩
  · intro c i; rw [hpos, hpl]; exact hInv.1 c i
  · rw [hpl]; exact hInv.2.1
  · rw [hpl]; exact hInv.2.2.1
  · rw [hpl, hidx]; exact hInv.2.2.2

theorem tokensInv_nextTurn (g : FishGame) (hInv : TokensInv g) :
    TokensInv (nextTurn g) := by
  obtain ⟨ht, hpos, hpl, -, -⟩ := nextTurn_fields g
  refine ⟨?_, ?_, ?_, ?_⟩
  · intro c i; rw [hpos, hpl]; exact hInv.1 c i
  · rw [hpl]; exact hInv.2.1
  · rw [hpl]; exact hInv.2.2.1
  · exact nextTurn_index_lt g hInv.2.2.1 hInv.2.2.2

theorem tokensInv_handleGameplayClick (g g1 : FishGame) (c : Coord)
    (hInv : TokensInv g) (h : handleGameplayClick g c = some g1) : TokensInv g1 := by
  unfold handleGameplayClick at h
  cases hl : g.penguinPositions.lookup c with
  | some owner =>
    rw [hl] at h
    dsimp only at h
    by_cases hown : owner = g.currentPlayerIndex
    · rw [if_pos hown] at h
      cases Option.some_inj.mp h
      exact tokensInv_of_fields_eq g _ rfl rfl rfl hInv
    · rw [if_neg hown] at h
      cases Option.some_inj.mp h
      exact hInv
  | none =>
    rw [hl] at h
    dsimp only at h
    cases hsel : g.selectedPenguin with
    | none =>
      rw [hsel] at h
      dsimp only at h
      cases Option.some_inj.mp h
      exact hInv
    | some fromPos =>
      rw [hsel] at h
      dsimp only at h
      by_cases hcm : c ∈ g.validMoves
      · rw [if_pos hcm] at h
        cases hmv : movePenguin g fromPos c with
        | none => rw [hmv] at h; exact Option.noConfusion h
        | some gm =>
          rw [hmv] at h
          dsimp only at h
          cases Option.some_inj.mp h
          have hInvm : TokensInv gm := tokensInv_movePenguin g gm fromPos c hInv hl hmv
          exact tokensInv_nextTurn _ (tokensInv_of_fields_eq gm _ rfl rfl rfl hInvm)
      · rw [if_neg hcm] at h
        cases Option.some_inj.mp h
        exact hInv

/-- Every reachable state satisfies the token invariant. -/
theorem reachable_tokensInv (g : FishGame) (h : Reachable g) : TokensInv g := by
  induction h with
  | init tiles players0 d hne hp hf =>
    refine ⟨?_, ?_, ?_, ?_⟩
    · intro c i
      constructor
      · intro hl; exact Option.noConfusion hl
      · rintro ⟨p, hip, hcp⟩
        rw [hp p (List.get?_mem hip)] at hcp
        exact absurd hcp (List.not_mem_nil c)
    · intro p hmem; rw [hp p hmem]; exact List.nodup_nil
    · exact List.length_pos.mpr hne
    · exact List.length_pos.mpr hne
  | placeClick g c hg hphase ih => exact tokensInv_handlePenguinPlacement g c ih
  | aiPlace g c hg hphase ht ho ih => exact tokensInv_placePenguinAt g c ih ho
  | playClick g g1 c hg hphase hclick ih =>
    exact tokensInv_handleGameplayClick g g1 c ih hclick
  | aiMove g g1 fromPos toPos hg hphase hai hmv ih =>
    obtain ⟨cur, hcur⟩ : ∃ cur, g.players.get? g.currentPlayerIndex = some cur := by
      cases hq : g.players.get? g.currentPlayerIndex with
      | none =>
        have := List.get?_eq_none.mp hq
        have h2 := ih.2.2.2
        omega
      | some cur => exact ⟨cur, rfl⟩
    have hmem := aiMakeMove_mem g cur hcur (fromPos, toPos) hai
    have hprops := mem_getValidMoves_props g fromPos toPos hmem.2
    have hto : g.penguinPositions.lookup toPos = none := by
      have := hprops.2.2
      unfold occupiedAt at this
      cases hq : g.penguinPositions.lookup toPos with
      | none => rfl
      | some j => rw [hq] at this; exact absurd this (by simp)
    exact tokensInv_nextTurn g1 (tokensInv_movePenguin g g1 fromPos toPos ih hto hmv)
  | aiPass g hg hphase hai ih => exact tokensInv_nextTurn g ih

/-! ### Terminal detection, silently ignored clicks, leaf evaluation -/

theorem isGameOver_iff_no_moves (g : FishGame) :
    isGameOver g = true ↔
      ∀ p ∈ g.players, ∀ pos ∈ p.penguins, getValidMoves g pos = [] := by
  unfold isGameOver
  simp [List.all_eq_true, List.isEmpty_iff]

theorem map_fishCount_modifyPlayer (ps : List Player) (i : Nat) (f : Player → Player)
    (hf : ∀ p, (f p).fishCount = p.fishCount) :
    (modifyPlayer ps i f).map Player.fishCount = ps.map Player.fishCount := by
  apply List.ext_get?
  intro n
  rw [List.get?_eq_getElem?, List.get?_eq_getElem?, List.getElem?_map, List.getElem?_map,
    ← List.get?_eq_getElem?, ← List.get?_eq_getElem?, get?_modifyPlayer]
  by_cases hn : n = i
  · rw [if_pos hn]
    cases ps.get? n <;> simp [hf]
  · rw [if_neg hn]

/-- Any gameplay click that does not complete a move is silently ignored:
the handler returns normally and all game-relevant fields are unchanged
(only the selection highlight may change). -/
theorem handleGameplayClick_no_move (g : FishGame) (c : Coord)
    (hnomove : ¬(g.penguinPositions.lookup c = none ∧
      g.selectedPenguin.isSome = true ∧ c ∈ g.validMoves)) :
    ∃ g1, handleGameplayClick g c = some g1 ∧
      g1.tiles = g.tiles ∧
      g1.penguinPositions = g.penguinPositions ∧
      g1.players = g.players ∧
      g1.currentPlayerIndex = g.currentPlayerIndex ∧
      g1.gamePhase = g.gamePhase := by
  unfold handleGameplayClick
  cases hl : g.penguinPositions.lookup c with
  | some owner =>
    dsimp only
    by_cases hown : owner = g.currentPlayerIndex
    · rw [if_pos hown]
      exact ⟨_, rfl, rfl, rfl, rfl, rfl, rfl⟩
    · rw [if_neg hown]
      exact ⟨g, rfl, rfl, rfl, rfl, rfl, rfl⟩
  | none =>
    dsimp only
    cases hsel : g.selectedPenguin with
    | none => exact ⟨g, rfl, rfl, rfl, rfl, rfl, rfl⟩
    | some fromPos =>
      dsimp only
      have hcm : c ∉ g.validMoves := by
        intro hmem
        exact hnomove ⟨hl, by rw [hsel]; rfl, hmem⟩
      rw [if_neg hcm]
      exact ⟨g, rfl, rfl, rfl, rfl, rfl, rfl⟩

/-- Outside the Playing phase a click can never apply a move: the board
tiles and every score are unchanged by the dispatcher. -/
theorem onHexClick_outside_playing (g : FishGame) (c : Coord) (cur : Player)
    (hcur : g.players.get? g.currentPlayerIndex = some cur)
    (hphase : g.gamePhase ≠ GamePhase.PLAYING) :
    ∃ g1, onHexClick g c = some g1 ∧ g1.tiles = g.tiles ∧
      g1.players.map Player.fishCount = g.players.map Player.fishCount := by
  unfold onHexClick
  rw [hcur]
  dsimp only
  by_cases hai : cur.isAI = true
  · rw [if_pos hai]
    exact ⟨g, rfl, rfl, rfl⟩
  · rw [if_neg hai]
    cases hph : g.gamePhase with
    | PLAYING => exact absurd hph hphase
    | SETUP => exact ⟨g, rfl, rfl, rfl⟩
    | GAME_OVER => exact ⟨g, rfl, rfl, rfl⟩
    | PLACING_PENGUINS =>
      refine ⟨handlePenguinPlacement g c, rfl, ?_, ?_⟩
      · unfold handlePenguinPlacement placePenguinAt
        dsimp only
        split
        · rfl
        · split
          · rfl
          · split <;> rfl
      · unfold handlePenguinPlacement placePenguinAt
        dsimp only
        split
        · rfl
        · split
          · rfl
          · split <;> exact map_fishCount_modifyPlayer _ _ _ (fun p => rfl)

/-- At depth 0, and at any depth in a game-over position, `_minimax`
returns the static evaluation of the state (whose perspective is the
state's own mover). -/
theorem minimax_leaf (d : Nat) (g : FishGame) (alpha beta : XVal) (m : Bool)
    (h : d = 0 ∨ isGameOver g = true) :
    minimax d g alpha beta m = XVal.fin (evaluateBoard g) := by
  cases d with
  | zero => rfl
  | succ k =>
    rcases h with h | h
    · exact Nat.noConfusion h
    · unfold minimax
      rw [if_pos h]

/-! ### The claims -/

/-- C1: the move generator returns exactly the cells reachable by sliding
along one fixed direction label: a cell is returned iff it lies a positive
number of steps along one of the six symbolic directions and every cell of
the line up to and including it is a present, unoccupied tile; the result
never contains the start cell, an occupied cell, or an absent cell. -/
theorem claim1_valid_moves_characterisation (g : FishGame) (start x : Coord) :
    (x ∈ getValidMoves g start ↔
      ∃ d : Dir, ∃ n : Nat, 1 ≤ n ∧ x = stepN d n start ∧
        ∀ k : Nat, 1 ≤ k → k ≤ n →
          hasTile g (stepN d k start) = true ∧ occupiedAt g (stepN d k start) = false) ∧
    (x ∈ getValidMoves g start →
      x ≠ start ∧ hasTile g x = true ∧ occupiedAt g x = false) :=
  ⟨mem_getValidMoves g start x, mem_getValidMoves_props g start x⟩

/-- C1, witness: on the two-tile board the cell east of the penguin is a
valid move, and the characterisation yields its properties. -/
theorem claim1_witness :
    ((0 : Int), (1 : Int)) ∈ getValidMoves gameTwoTiles ((0 : Int), (0 : Int)) ∧
    (((0 : Int), (1 : Int)) ≠ ((0 : Int), (0 : Int)) ∧
      hasTile gameTwoTiles ((0 : Int), (1 : Int)) = true ∧
      occupiedAt gameTwoTiles ((0 : Int), (1 : Int)) = false) := by
  have hmem : ((0 : Int), (1 : Int)) ∈ getValidMoves gameTwoTiles ((0 : Int), (0 : Int)) := by
    decide
  exact ⟨hmem,
    (claim1_valid_moves_characterisation gameTwoTiles
      ((0 : Int), (0 : Int)) ((0 : Int), (1 : Int))).2 hmem⟩

/-- C2: applying a move whose origin holds a token on a present tile and
whose destination is a legal move removes the origin tile, credits exactly
its fish value to the mover, relocates the mover's token, and changes no
other tile, token, score, the mover index or the phase. -/
theorem claim2_apply_move (g : FishGame) (fromPos toPos : Coord) (i : Nat)
    (pl : Player) (t : Tile)
    (hpos : g.penguinPositions.lookup fromPos = some i)
    (hpl : g.players.get? i = some pl)
    (ht : g.tiles.lookup fromPos = some t)
    (hmv : toPos ∈ getValidMoves g fromPos)
    (hnd : pl.penguins.Nodup) :
    ∃ g', movePenguin g fromPos toPos = some g' ∧
      g'.tiles.lookup fromPos = none ∧
      (∀ c, c ≠ fromPos → g'.tiles.lookup c = g.tiles.lookup c) ∧
      g'.penguinPositions.lookup toPos = some i ∧
      g'.penguinPositions.lookup fromPos = none ∧
      (∀ c, c ≠ fromPos → c ≠ toPos →
        g'.penguinPositions.lookup c = g.penguinPositions.lookup c) ∧
      (∃ pl', g'.players.get? i = some pl' ∧
        pl'.fishCount = pl.fishCount + (t.fish : Int) ∧
        (∀ x, x ∈ pl'.penguins ↔ (x = toPos ∨ (x ∈ pl.penguins ∧ x ≠ fromPos)))) ∧
      (∀ j, j ≠ i → g'.players.get? j = g.players.get? j) ∧
      g'.currentPlayerIndex = g.currentPlayerIndex ∧
      g'.gamePhase = g.gamePhase :=
  movePenguin_spec g fromPos toPos i pl t hpos hpl ht hmv hnd

/-- C2, witness: the spec's scenario — a move off a 3-fish tile raises the
mover's score from 0 to exactly 3 and leaves the vacated coordinate absent
from the board. -/
theorem claim2_witness :
    ∃ g', movePenguin gameTwoTiles ((0 : Int), (0 : Int)) ((0 : Int), (1 : Int)) = some g' ∧
      g'.tiles.lookup ((0 : Int), (0 : Int)) = none ∧
      ∃ pl', g'.players.get? 0 = some pl' ∧ pl'.fishCount = 3 := by
  obtain ⟨g', h1, h2, h3, h4, h5, h6, ⟨pl', hp1, hp2, hp3⟩, h8, h9, h10⟩ :=
    claim2_apply_move gameTwoTiles ((0 : Int), (0 : Int)) ((0 : Int), (1 : Int)) 0
      (Player.mk "P1" "red" 20 false 0 [((0 : Int), (0 : Int))]) (Tile.mk 0 0 3 true)
      rfl rfl rfl (by decide) (by decide)
  exact ⟨g', h1, h2, pl', hp1, by rw [hp2]; rfl⟩

/-- C3: the terminal test is true iff no player — not only the mover —
has any legal move for any of their tokens. -/
theorem claim3_terminal_iff (g : FishGame) :
    isGameOver g = true ↔
      ¬ ∃ p ∈ g.players, ∃ pos ∈ p.penguins, ∃ x, x ∈ getValidMoves g pos := by
  rw [isGameOver_iff_no_moves]
  constructor
  · rintro h ⟨p, hp, pos, hpos, x, hx⟩
    rw [h p hp pos hpos] at hx
    exact List.not_mem_nil x hx
  · intro h p hp pos hpos
    rw [List.eq_nil_iff_forall_not_mem]
    intro x hx
    exact h ⟨p, hp, pos, hpos, x, hx⟩

/-- C4, counterexample: removing a tile from an empty board does not fail:
`remove_tile` returns the normal value 0 and the unchanged map, whereas the
claimed contract demands an `InvalidRemoval` failure. -/
theorem claim4_counterexample :
    removeTile [] ((0 : Int), (0 : Int)) = (0, []) ∧
    removeTileSpec [] ((0 : Int), (0 : Int)) =
      Except.error RemovalError.InvalidRemoval :=
  ⟨rfl, rfl⟩

/-- C4, amended: removing a tile deletes it and returns its fish value
when one exists; when no tile exists it raises no error, returning 0 and
leaving the map unchanged. -/
theorem claim4_remove_tile (tiles : List (Coord × Tile)) (c : Coord) :
    (∀ t, tiles.lookup c = some t →
      removeTile tiles c = (t.fish, dictErase tiles c) ∧
      (removeTile tiles c).2.lookup c = none) ∧
    (tiles.lookup c = none → removeTile tiles c = (0, tiles)) := by
  constructor
  · intro t ht
    unfold removeTile
    rw [ht]
    refine ⟨rfl, ?_⟩
    show (dictErase tiles c).lookup c = none
    rw [lookup_dictErase, if_pos rfl]
  · intro h
    unfold removeTile
    rw [h]

/-- C4, witness: removing the only tile returns its fish value 2 and the
empty map; removing from an empty board returns 0 and the empty map. -/
theorem claim4_witness :
    removeTile [mkTile 0 0 2] ((0 : Int), (0 : Int)) = (2, []) ∧
    removeTile [] ((0 : Int), (1 : Int)) = (0, []) := by
  have h1 := (claim4_remove_tile [mkTile 0 0 2] ((0 : Int), (0 : Int))).1
    (Tile.mk 0 0 2 true) rfl
  have h2 := (claim4_remove_tile [] ((0 : Int), (1 : Int))).2 rfl
  exact ⟨by rw [h1.1]; rfl, h2⟩

/-- C5, counterexample: a click that attempts an illegal move (the
destination is not among the stored legal moves) is silently ignored —
the handler returns the unchanged state as a normal value — whereas the
claimed contract demands an `IllegalMove` failure, which the spec-style
comparator produces. -/
theorem claim5_counterexample :
    handleGameplayClick gameTwoTiles ((0 : Int), (2 : Int)) = some gameTwoTiles ∧
    applyMoveSpec gameTwoTiles ((0 : Int), (0 : Int)) ((0 : Int), (2 : Int)) =
      Except.error MoveError.IllegalMove := by
  constructor
  · rfl
  · rfl

/-- C5, amended: an attempted move whose destination is not among the
stored legal moves, or made with no token selected, is silently ignored:
no error of any kind is raised and board, tokens, scores, mover and phase
are unchanged; outside the Playing phase a click can never apply a move,
leaving the board and every score unchanged. -/
theorem claim5_illegal_clicks (g : FishGame) (c : Coord) (cur : Player) :
    (g.gamePhase = GamePhase.PLAYING →
      ¬(g.penguinPositions.lookup c = none ∧
        g.selectedPenguin.isSome = true ∧ c ∈ g.validMoves) →
      ∃ g1, handleGameplayClick g c = some g1 ∧
        g1.tiles = g.tiles ∧
        g1.penguinPositions = g.penguinPositions ∧
        g1.players = g.players ∧
        g1.currentPlayerIndex = g.currentPlayerIndex ∧
        g1.gamePhase = g.gamePhase) ∧
    (g.players.get? g.currentPlayerIndex = some cur →
      g.gamePhase ≠ GamePhase.PLAYING →
      ∃ g1, onHexClick g c = some g1 ∧ g1.tiles = g.tiles ∧
        g1.players.map Player.fishCount = g.players.map Player.fishCount) :=
  ⟨fun _ h => handleGameplayClick_no_move g c h,
   fun hcur hph => onHexClick_outside_playing g c cur hcur hph⟩

/-- C5, witness: the illegal click of the counterexample state leaves the
game fields unchanged, and a click while placing cannot move. -/
theorem claim5_witness :
    (∃ g1, handleGameplayClick gameTwoTiles ((0 : Int), (2 : Int)) = some g1 ∧
      g1.tiles = gameTwoTiles.tiles ∧
      g1.penguinPositions = gameTwoTiles.penguinPositions ∧
      g1.players = gameTwoTiles.players ∧
      g1.currentPlayerIndex = gameTwoTiles.currentPlayerIndex ∧
      g1.gamePhase = gameTwoTiles.gamePhase) ∧
    (∃ g1, onHexClick gamePlacing ((5 : Int), (5 : Int)) = some g1 ∧
      g1.tiles = gamePlacing.tiles ∧
      g1.players.map Player.fishCount = gamePlacing.players.map Player.fishCount) :=
  ⟨(claim5_illegal_clicks gameTwoTiles ((0 : Int), (2 : Int)) defaultPlayer).1 rfl (by decide),
   (claim5_illegal_clicks gamePlacing ((5 : Int), (5 : Int))
      (Player.mk "P2" "blue" 21 false 0 [])).2 rfl (by decide)⟩

/-- C6, counterexample: in the corridor position the mover (player 0) has
five legal moves, yet the AI driver returns no move: with depth 3, every
candidate's minimax score is minus infinity because the immobile opponent
makes the nested maximizing branch fold over an empty move list. -/
theorem claim6_counterexample :
    aiMakeMove gameCorridor = none ∧
    gameCorridor.currentPlayerIndex = 0 ∧
    gameCorridor.players.get? 0 =
      some (Player.mk "AI" "red" 30 true 0 [((0 : Int), (0 : Int))]) ∧
    getValidMoves gameCorridor ((0 : Int), (0 : Int)) =
      [((0 : Int), (1 : Int)), ((0 : Int), (2 : Int)), ((0 : Int), (3 : Int)),
       ((0 : Int), (4 : Int)), ((0 : Int), (5 : Int))] := by
  refine ⟨by rfl, rfl, rfl, by rfl⟩

/-- C6, amended: the AI returns no move whenever the mover has no legal
move, and any returned move pairs one of the mover's own tokens with one
of its legal destinations; the converse fails — legal moves may exist
while every candidate scores minus infinity and none is returned. -/
theorem claim6_best_move (g : FishGame) (cur : Player)
    (hcur : g.players.get? g.currentPlayerIndex = some cur) :
    ((∀ pos ∈ cur.penguins, getValidMoves g pos = []) → aiMakeMove g = none) ∧
    (∀ fromPos toPos, aiMakeMove g = some (fromPos, toPos) →
      fromPos ∈ cur.penguins ∧ toPos ∈ getValidMoves g fromPos) :=
  ⟨aiMakeMove_eq_none_of_no_moves g cur hcur,
   fun fromPos toPos h => aiMakeMove_mem g cur hcur (fromPos, toPos) h⟩

/-- C6, witness: with no penguins at all the mover has no legal move and
the AI returns no move. -/
theorem claim6_witness : aiMakeMove gameScoresOnly = none :=
  (claim6_best_move gameScoresOnly (Player.mk "B" "blue" 21 false 10 []) rfl).1
    (fun pos h => absurd h (List.not_mem_nil pos))

/-- C7: performing the search's temporary move and then its undo restores
the state exactly: the removed tile reappears with its exact fish value
(the tile map and position map are pointwise restored), every other
player is untouched, the mover's score is restored exactly and their
token list up to order, and the player to move and phase never change. -/
theorem claim7_temp_undo (g : FishGame) (fromPos toPos : Coord)
    (i : Nat) (pl : Player) (t : Tile) (g1 : FishGame) (fish : Nat)
    (hpos : g.penguinPositions.lookup fromPos = some i)
    (hto : g.penguinPositions.lookup toPos = none)
    (hpl : g.players.get? i = some pl)
    (ht : g.tiles.lookup fromPos = some t)
    (htr : t.row = fromPos.1) (htc : t.col = fromPos.2) (hte : t.existsFlag = true)
    (hmem : fromPos ∈ pl.penguins)
    (hnotmem : toPos ∉ pl.penguins)
    (hrun : makeTempMove g fromPos toPos = (g1, fish)) :
    fish = t.fish ∧
    (∀ c, (undoTempMove g1 fromPos toPos fish).tiles.lookup c = g.tiles.lookup c) ∧
    (∀ c, (undoTempMove g1 fromPos toPos fish).penguinPositions.lookup c =
      g.penguinPositions.lookup c) ∧
    (∀ j, j ≠ i → (undoTempMove g1 fromPos toPos fish).players.get? j = g.players.get? j) ∧
    (∃ pl', (undoTempMove g1 fromPos toPos fish).players.get? i = some pl' ∧
      pl'.fishCount = pl.fishCount ∧ pl'.penguins.Perm pl.penguins ∧
      pl'.name = pl.name ∧ pl'.color = pl.color ∧ pl'.age = pl.age ∧ pl'.isAI = pl.isAI) ∧
    (undoTempMove g1 fromPos toPos fish).currentPlayerIndex = g.currentPlayerIndex ∧
    (undoTempMove g1 fromPos toPos fish).gamePhase = g.gamePhase :=
  makeTempMove_undoTempMove g fromPos toPos i pl t g1 fish
    hpos hto hpl ht htr htc hte hmem hnotmem hrun

/-- C7, witness: on the two-tile board, a temporary move off the 3-fish
tile followed by its undo restores the tile and the token position. -/
theorem claim7_witness :
    (undoTempMove (makeTempMove gameTwoTiles ((0 : Int), (0 : Int)) ((0 : Int), (1 : Int))).1
      ((0 : Int), (0 : Int)) ((0 : Int), (1 : Int))
      (makeTempMove gameTwoTiles ((0 : Int), (0 : Int)) ((0 : Int), (1 : Int))).2).tiles.lookup
        ((0 : Int), (0 : Int)) = gameTwoTiles.tiles.lookup ((0 : Int), (0 : Int)) ∧
    (undoTempMove (makeTempMove gameTwoTiles ((0 : Int), (0 : Int)) ((0 : Int), (1 : Int))).1
      ((0 : Int), (0 : Int)) ((0 : Int), (1 : Int))
      (makeTempMove gameTwoTiles ((0 : Int), (0 : Int)) ((0 : Int), (1 : Int))).2).penguinPositions.lookup
        ((0 : Int), (0 : Int)) = gameTwoTiles.penguinPositions.lookup ((0 : Int), (0 : Int)) := by
  obtain ⟨-, htiles, hposn, -, -, -, -⟩ :=
    claim7_temp_undo gameTwoTiles ((0 : Int), (0 : Int)) ((0 : Int), (1 : Int)) 0
      (Player.mk "P1" "red" 20 false 0 [((0 : Int), (0 : Int))]) (Tile.mk 0 0 3 true)
      (makeTempMove gameTwoTiles ((0 : Int), (0 : Int)) ((0 : Int), (1 : Int))).1
      (makeTempMove gameTwoTiles ((0 : Int), (0 : Int)) ((0 : Int), (1 : Int))).2
      rfl rfl rfl rfl rfl rfl rfl (by decide) (by decide) rfl
  exact ⟨htiles _, hposn _⟩

/-- C8, counterexample: the value `_minimax` returns at a leaf is the
static evaluation from the perspective of the player to move at that
node, not of the searching player: two states identical except for the
mover index get the values 10 and −10, so the leaf value is not
"regardless of which player is to move" the searching player's
evaluation (for a search rooted at player 0, `staticEvalFrom` at
perspective 0 gives −10 while the leaf with player 1 to move returns 10). -/
theorem claim8_counterexample :
    minimax 0 gameScoresOnly XVal.ninf XVal.pinf true = XVal.fin 10 ∧
    staticEvalFrom gameScoresOnly 0 = -10 ∧
    staticEvalFrom gameScoresOnly 1 = 10 ∧
    minimax 0 { gameScoresOnly with currentPlayerIndex := 0 }
      XVal.ninf XVal.pinf true = XVal.fin (-10) := by
  have h1 : evaluateBoard gameScoresOnly = 10 := by
    simp [evaluateBoard, gameScoresOnly, defaultPlayer, List.enum, List.enumFrom, List.filter]
  have h0 : staticEvalFrom gameScoresOnly 0 = -10 := by
    simp [staticEvalFrom, evaluateBoard, gameScoresOnly, defaultPlayer,
      List.enum, List.enumFrom, List.filter]
  refine ⟨?_, h0, ?_, ?_⟩
  · show XVal.fin (evaluateBoard gameScoresOnly) = XVal.fin 10
    rw [h1]
  · show staticEvalFrom gameScoresOnly 1 = 10
    have h2 : staticEvalFrom gameScoresOnly 1 = evaluateBoard gameScoresOnly := rfl
    rw [h2, h1]
  · show XVal.fin (evaluateBoard { gameScoresOnly with currentPlayerIndex := 0 }) = XVal.fin (-10)
    have h3 : evaluateBoard { gameScoresOnly with currentPlayerIndex := 0 } =
        staticEvalFrom gameScoresOnly 0 := rfl
    rw [h3, h0]

/-- C8, amended: at depth 0 and at terminal states `_minimax` returns the
static evaluation of the node from the perspective of the player to move
at that node: that player's score minus the mean of the other players'
scores, plus the player's legal-move count weighted 1/2, minus the mean
opposing legal-move count weighted 3/10 (both weights at most 1). -/
theorem claim8_leaf_eval (g : FishGame) (d : Nat) (alpha beta : XVal) (m : Bool)
    (h : d = 0 ∨ isGameOver g = true) :
    minimax d g alpha beta m = XVal.fin (evaluateBoard g) ∧
    evaluateBoard g = staticEvalFrom g g.currentPlayerIndex ∧
    ((1 : ℚ) / 2 ≤ 1 ∧ (3 : ℚ) / 10 ≤ 1) ∧
    (∀ cur : Player, g.players.get? g.currentPlayerIndex = some cur →
      0 < (g.players.enum.filter (fun pr => pr.1 ≠ g.currentPlayerIndex)).length →
      evaluateBoard g =
        (cur.fishCount : ℚ)
        - ((((g.players.enum.filter (fun pr => pr.1 ≠ g.currentPlayerIndex)).map
            (fun pr => pr.2.fishCount)).sum : Int) : ℚ)
          / ((g.players.enum.filter (fun pr => pr.1 ≠ g.currentPlayerIndex)).length : ℚ)
        + ((cur.penguins.map (fun pos => (getValidMoves g pos).length)).sum : ℚ) * (1 / 2)
        - ((((g.players.enum.filter (fun pr => pr.1 ≠ g.currentPlayerIndex)).map
            (fun pr => (pr.2.penguins.map (fun pos => (getValidMoves g pos).length)).sum)).sum : Nat) : ℚ)
          / ((g.players.enum.filter (fun pr => pr.1 ≠ g.currentPlayerIndex)).length : ℚ)
          * (3 / 10)) := by
  refine ⟨minimax_leaf d g alpha beta m h, rfl, ⟨by norm_num, by norm_num⟩, ?_⟩
  intro cur hcur hopp
  unfold evaluateBoard
  rw [hcur]
  simp only [Option.getD_some]
  rw [if_pos hopp, if_pos hopp]

/-- C8, witness: in the scores-only position (player 1 to move, depth 0)
the minimax value is the node evaluation 10 − 0 = 10. -/
theorem claim8_witness :
    minimax 0 gameScoresOnly XVal.ninf XVal.pinf false =
      XVal.fin (evaluateBoard gameScoresOnly) ∧
    evaluateBoard gameScoresOnly = 10 := by
  exact ⟨(claim8_leaf_eval gameScoresOnly 0 XVal.ninf XVal.pinf false (Or.inl rfl)).1,
    by simp [evaluateBoard, gameScoresOnly, defaultPlayer, List.enum, List.enumFrom, List.filter]⟩

/-- C9: in every reachable state no coordinate is occupied by tokens of
two different players, and the position dict agrees with the per-player
token lists. -/
theorem claim9_tokens_disjoint (g : FishGame) (h : Reachable g) :
    (∀ (i j : Nat) (p q : Player) (c : Coord),
      g.players.get? i = some p → g.players.get? j = some q →
      c ∈ p.penguins → c ∈ q.penguins → i = j) ∧
    (∀ (c : Coord) (i : Nat), g.penguinPositions.lookup c = some i ↔
      ∃ p, g.players.get? i = some p ∧ c ∈ p.penguins) := by
  have hInv := reachable_tokensInv g h
  refine ⟨?_, hInv.1⟩
  intro i j p q c hip hjq hcp hcq
  have h1 := (hInv.1 c i).mpr ⟨p, hip, hcp⟩
  have h2 := (hInv.1 c j).mpr ⟨q, hjq, hcq⟩
  rw [h1] at h2
  exact Option.some_inj.mp h2

/-- C9, witness: a fresh game is reachable and its (empty) token sets are
disjoint and consistent with the (empty) position dict. -/
theorem claim9_witness :
    (∀ (i j : Nat) (p q : Player) (c : Coord),
      gameFresh.players.get? i = some p → gameFresh.players.get? j = some q →
      c ∈ p.penguins → c ∈ q.penguins → i = j) ∧
    (∀ (c : Coord) (i : Nat), gameFresh.penguinPositions.lookup c = some i ↔
      ∃ p, gameFresh.players.get? i = some p ∧ c ∈ p.penguins) :=
  claim9_tokens_disjoint gameFresh
    (Reachable.init _ _ _ (by decide) (by decide) (by decide))

/-- C10: during the Placing phase, a placement click on a coordinate with
no tile or with a token already there is a silent no-op: the handler
raises nothing and returns the state itself, so the board, all tokens,
all scores, the mover index and the phase are unchanged. -/
theorem claim10_placement_noop (g : FishGame) (c : Coord)
    (hphase : g.gamePhase = GamePhase.PLACING_PENGUINS)
    (h : g.tiles.lookup c = none ∨ (g.penguinPositions.lookup c).isSome = true) :
    handlePenguinPlacement g c = g := by
  unfold handlePenguinPlacement
  rcases h with h | h
  · rw [if_pos]
    unfold hasTile
    rw [h]
    simp
  · by_cases ht : hasTile g c = true
    · have h2 : occupiedAt g c = true := h
      rw [if_neg (not_not_intro ht), if_pos h2]
    · rw [if_pos ht]

/-- C10, witness: in a placing-phase game, a click on a hole and a click
on an occupied tile both leave the state untouched. -/
theorem claim10_witness :
    handlePenguinPlacement gamePlacing ((3 : Int), (3 : Int)) = gamePlacing ∧
    handlePenguinPlacement gamePlacing ((0 : Int), (0 : Int)) = gamePlacing :=
  ⟨claim10_placement_noop gamePlacing ((3 : Int), (3 : Int)) rfl (Or.inl rfl),
   claim10_placement_noop gamePlacing ((0 : Int), (0 : Int)) rfl (Or.inr rfl)⟩

end Fish
